import Mathlib

/-!
Shallow embedding of `crates/bevy_animation/src/lib.rs` (keyframe animation
evaluation: clips, playback state, path resolution, the aliasing guard and the
per-frame apply step), together with theorems checking the natural-language
specification against it.

Modelling conventions:
* `f32` values (times, speeds, weights, keyframe payloads) are embedded as `ℚ`.
  The claims under scrutiny are about orderings, boundary crossings and exact
  update equations, none of which hinge on rounding; NaN-producing corner cases
  (e.g. `x % 0.0`) are outside every claim's hypotheses.
* ECS queries are embedded as a `World` function from entity ids to an optional
  record of the components a node may carry; a query `get` that fails in Rust is
  a `none` here.
* Rust `u32`/`usize` counters are embedded as `Nat`; the only arithmetic on them
  is `+ 1`, and overflow (a debug-build panic in Rust) is unreachable in every
  claim's scope.
* Scene writes are recorded as an event trace (`WriteEvent`): the claims concern
  which writes happen and with which interpolation parameters, never the
  numeric result of `slerp`/`lerp`, so quaternion arithmetic is not re-derived.
* Diagnostics (`warn!`) are recorded as a `Warning` trace.
* The potentially non-terminating upward parent walk takes explicit fuel and
  returns `none` when the fuel runs out (only possible on a cyclic hierarchy).
-/

namespace BevyAnim

/-- Entity ids (`bevy_ecs::Entity`). -/
abbrev Entity := Nat

/-- `bevy_core::Name`: node names used in entity paths. -/
abbrev Name := String

/-- Asset handles (`Handle<AnimationClip>`), by id. -/
abbrev Handle := Nat

/-- Quaternions as rotation keyframes; components only, never interpolated here. -/
abbrev Quat := ℚ × ℚ × ℚ × ℚ

/-- 3-vectors for translation / scale keyframes. -/
abbrev Vec3 := ℚ × ℚ × ℚ

/-- `enum Keyframes`: list of keyframes for one attribute of a transform. -/
inductive Keyframes where
  | Rotation (ks : List Quat)
  | Translation (ks : List Vec3)
  | Scale (ks : List Vec3)
  | Weights (ks : List ℚ)
deriving DecidableEq, Repr

/-- `struct VariableCurve { keyframe_timestamps: Vec<f32>, keyframes: Keyframes }`. -/
structure VariableCurve where
  keyframe_timestamps : List ℚ
  keyframes : Keyframes
deriving DecidableEq, Repr

/-- `struct EntityPath { parts: Vec<Name> }`. -/
structure EntityPath where
  parts : List Name
deriving DecidableEq, Repr

/-- `struct AnimationClip`. The `HashMap<EntityPath, usize>` is embedded as an
association list in insertion order (Rust's hash-map iteration order is
arbitrary; the list order is this embedding's representative of it). -/
structure AnimationClip where
  curves : List (List VariableCurve)
  paths : List (EntityPath × Nat)
  duration : ℚ
deriving DecidableEq, Repr

/-- `Default for AnimationClip` (`#[derive(Default)]`). -/
def AnimationClip.defaultClip : AnimationClip :=
  { curves := [], paths := [], duration := 0 }

/-- Association-list lookup standing for `HashMap::get`. -/
def lookupPath (paths : List (EntityPath × Nat)) (p : EntityPath) : Option Nat :=
  (paths.find? (fun pr => pr.1 = p)).map (fun pr => pr.2)

/-- `curve.keyframe_timestamps.last().unwrap_or(&0.0)`. -/
def lastTimestampOr0 (c : VariableCurve) : ℚ :=
  c.keyframe_timestamps.getLast?.getD 0

/-- `AnimationClip::get_curves`. -/
def AnimationClip.get_curves (clip : AnimationClip) (boneId : Nat) :
    Option (List VariableCurve) :=
  clip.curves.get? boneId

/-- `AnimationClip::add_curve_to_path`.  In the existing-bone branch Rust does
`self.curves[*bone_id].push(curve)`; for clips built through this function the
bone id is always in range, so `List.set` (a no-op out of range, where Rust
would panic) is a faithful embedding on every reachable clip. -/
def AnimationClip.add_curve_to_path (clip : AnimationClip) (path : EntityPath)
    (curve : VariableCurve) : AnimationClip :=
  let duration' := max clip.duration (lastTimestampOr0 curve)
  match lookupPath clip.paths path with
  | some boneId =>
      { clip with
        duration := duration'
        curves := clip.curves.set boneId (clip.curves.getD boneId [] ++ [curve]) }
  | none =>
      { clip with
        duration := duration'
        curves := clip.curves ++ [[curve]]
        paths := clip.paths ++ [(path, clip.curves.length)] }

/-- A clip built from the default clip by a sequence of `add_curve_to_path` calls. -/
def buildClip (l : List (EntityPath × VariableCurve)) : AnimationClip :=
  l.foldl (fun clip pc => clip.add_curve_to_path pc.1 pc.2) AnimationClip.defaultClip

/-- `AnimationClip::compatible_with`, iteration step of
`self.paths.keys().all(|path| &path.parts[0] == name)`.  `path.parts[0]` on an
empty `parts` is a Rust index panic, embedded as `none`; Rust's `all`
short-circuits at the first `false`. -/
def compatibleWithGo (name : Name) : List (EntityPath × Nat) → Option Bool
  | [] => some true
  | (p, _) :: rest =>
      match p.parts with
      | [] => none
      | h :: _ => if h = name then compatibleWithGo name rest else some false

/-- `AnimationClip::compatible_with`. -/
def AnimationClip.compatible_with (clip : AnimationClip) (name : Name) : Option Bool :=
  compatibleWithGo name clip.paths

/-- `enum RepeatAnimation`. -/
inductive RepeatAnimation where
  | Forever
  | Never
  | Count (n : Nat)
deriving DecidableEq, Repr

/-- `struct PlayingAnimation`. -/
structure PlayingAnimation where
  repeatMode : RepeatAnimation
  speed : ℚ
  elapsed : ℚ
  animation_clip : Option Handle
  path_cache : List (List (Option Entity))
  completions : Nat
deriving DecidableEq, Repr

/-- `Default for PlayingAnimation`. -/
def defaultPlayingAnimation : PlayingAnimation :=
  { repeatMode := .Never
    speed := 1
    elapsed := 0
    animation_clip := none
    path_cache := []
    completions := 0 }

/-- `PlayingAnimation::finished`. -/
def PlayingAnimation.finished (a : PlayingAnimation) : Bool :=
  match a.repeatMode with
  | .Forever => false
  | .Never => 1 ≤ a.completions
  | .Count n => n ≤ a.completions

/-- `struct AnimationTransition`. -/
structure AnimationTransition where
  current_weight : ℚ
  weight_decline_per_sec : ℚ
  animation : PlayingAnimation
deriving DecidableEq, Repr

/-- `struct AnimationPlayer`. -/
structure AnimationPlayer where
  paused : Bool
  animation : PlayingAnimation
  transitions : List AnimationTransition
deriving DecidableEq, Repr

/-- `AnimationPlayer::start`. -/
def AnimationPlayer.start (p : AnimationPlayer) (h : Handle) : AnimationPlayer :=
  { p with
    animation := { defaultPlayingAnimation with animation_clip := some h }
    transitions := [] }

/-- `AnimationPlayer::animation_clip`. -/
def AnimationPlayer.animation_clip (p : AnimationPlayer) : Option Handle :=
  p.animation.animation_clip

/-- `AnimationPlayer::is_playing_clip`. -/
def AnimationPlayer.is_playing_clip (p : AnimationPlayer) (h : Handle) : Bool :=
  match p.animation_clip with
  | some h2 => h2 = h
  | none => false

/-- `AnimationPlayer::is_paused`. -/
def AnimationPlayer.is_paused (p : AnimationPlayer) : Bool := p.paused

/-- `AnimationPlayer::play`. -/
def AnimationPlayer.play (p : AnimationPlayer) (h : Handle) : AnimationPlayer :=
  if ¬ p.is_playing_clip h ∨ p.is_paused then p.start h else p

/-- One scene node's queryable components.  `name`/`children` are `none` when
the node lacks the component (the corresponding Rust `Query::get` fails);
`hasTransform`/`hasMorphs` say whether the `transforms`/`morphs` fetches
succeed; `hasPlayer`/`parent` are what the `parents` query returns. -/
structure NodeInfo where
  name : Option Name
  children : Option (List Entity)
  hasPlayer : Bool
  parent : Option Entity
  hasTransform : Bool
  hasMorphs : Bool

/-- The live ECS world: `none` for an entity that does not exist. -/
def World := Entity → Option NodeInfo

/-- `Query<&Children>::get`. -/
def childrenOf (w : World) (e : Entity) : Option (List Entity) :=
  (w e).bind (fun i => i.children)

/-- `Query<&Name>::get`. -/
def nameOf (w : World) (e : Entity) : Option Name :=
  (w e).bind (fun i => i.name)

/-- The upward loop of `verify_no_ancestor_player`, with fuel for the
potentially unbounded parent walk; `none` = fuel ran out (cyclic hierarchy,
where the Rust loop would not terminate). -/
def verifyLoop (w : World) : Nat → Entity → Option Bool
  | 0, _ => none
  | fuel + 1, current =>
      match w current with
      | none => some true
      | some info =>
          if info.hasPlayer then some false
          else
            match info.parent with
            | some p => verifyLoop w fuel p
            | none => some true

/-- `verify_no_ancestor_player`. -/
def verify_no_ancestor_player (w : World) (fuel : Nat)
    (playerParent : Option Entity) : Option Bool :=
  match playerParent with
  | none => some true
  | some p => verifyLoop w fuel p

/-- Spec-side reachability predicate: some entity reachable from `e` by
following parent links upward (including `e` itself) hosts an `AnimationPlayer`. -/
inductive HostsUp (w : World) : Entity → Prop where
  | here (e : Entity) (info : NodeInfo) :
      w e = some info → info.hasPlayer = true → HostsUp w e
  | up (e : Entity) (info : NodeInfo) (p : Entity) :
      w e = some info → info.parent = some p → HostsUp w p → HostsUp w e

/-- `Vec::resize(n, v)`: truncate to `n` or pad with `v` up to `n`. -/
def listResize {α : Type} (l : List α) (n : Nat) (v : α) : List α :=
  l.take n ++ List.replicate (n - l.length) v

/-- Diagnostics emitted through `warn!`. -/
inductive Warning where
  | entityNotFound (path : EntityPath)
  | ancestorConflict (root : Entity)
deriving DecidableEq, Repr

/-- Loop body of `entity_from_path` over `path.parts.iter().enumerate().skip(1)`:
`idx` is the enumeration index, `current` the entity reached so far, and the
per-path cache is threaded through (Rust mutates it in place). -/
def entityFromPathGo (w : World) :
    Nat → Entity → List Name → List (Option Entity) →
    Option Entity × List (Option Entity)
  | _, current, [], cache => (some current, cache)
  | idx, current, part :: rest, cache =>
      match childrenOf w current with
      | none => (none, cache)
      | some children =>
          let cachedHit : Option Entity :=
            match cache.getD idx none with
            | some c =>
                if c ∈ children ∧ nameOf w c = some part then some c else none
            | none => none
          match cachedHit with
          | some c => entityFromPathGo w (idx + 1) c rest cache
          | none =>
              match children.find? (fun ch => nameOf w ch = some part) with
              | some ch =>
                  entityFromPathGo w (idx + 1) ch rest (cache.set idx (some ch))
              | none => (none, cache)

/-- `entity_from_path`.  The `warn!` on failure is recorded by the caller
(`applyBones`) when the returned entity is `none`. -/
def entity_from_path (w : World) (root : Entity) (path : EntityPath)
    (cache : List (Option Entity)) : Option Entity × List (Option Entity) :=
  let cache1 := listResize cache path.parts.length none
  entityFromPathGo w 1 root (path.parts.drop 1) cache1

/-- Rust `x % d` on non-negative floats (the only context in which
`apply_animation` evaluates it): `x - d * trunc(x / d)`, which for
`0 ≤ d ≤ x` is `x - d * ⌊x / d⌋`.  (`d = 0` gives NaN in Rust; here, with
`ℚ`-division by zero equal to 0, it gives back `x` — outside every claim.) -/
def fmod (x d : ℚ) : ℚ := x - d * ⌊x / d⌋

/-- The elapsed time after the advance step of `apply_animation`
(`animation.elapsed += time.delta_seconds() * animation.speed`, gated on
`!animation.finished() && !paused`). -/
def newElapsed (anim : PlayingAnimation) (paused : Bool) (dt : ℚ) : ℚ :=
  if ¬ anim.finished ∧ ¬ paused then anim.elapsed + dt * anim.speed else anim.elapsed

/-- The completion-increment condition of `apply_animation`, checked on the
newly advanced, still unwrapped elapsed time. -/
def crossesBoundary (anim : PlayingAnimation) (paused : Bool) (duration dt : ℚ) : Prop :=
  (duration < newElapsed anim paused dt ∧ 0 < anim.speed) ∨
  (newElapsed anim paused dt < 0 ∧ anim.speed < 0)

instance (anim : PlayingAnimation) (paused : Bool) (duration dt : ℚ) :
    Decidable (crossesBoundary anim paused duration dt) := by
  unfold crossesBoundary; infer_instance

/-- Lines 545–561 of `apply_animation`: advance `elapsed`, increment
`completions` on a boundary crossing, and wrap a local copy of the elapsed
time into range.  Returns the updated animation state (note: the *stored*
`animation.elapsed` keeps the unwrapped value; only the local copy used for
sampling is wrapped) paired with the wrapped sampling time. -/
def advanceAnimation (anim : PlayingAnimation) (paused : Bool) (duration dt : ℚ) :
    PlayingAnimation × ℚ :=
  let elapsed0 := newElapsed anim paused dt
  let completions' :=
    if crossesBoundary anim paused duration dt then anim.completions + 1
    else anim.completions
  let e1 := if duration ≤ elapsed0 then fmod elapsed0 duration else elapsed0
  let e2 := if e1 < 0 then e1 + duration else e1
  ({ anim with elapsed := elapsed0, completions := completions' }, e2)

/-- Lines 562–564 of `apply_animation`: replace the per-bone path cache with a
fresh all-empty cache when its length disagrees with the clip's path count. -/
def refreshPathCache (cache : List (List (Option Entity))) (pathCount : Nat) :
    List (List (Option Entity)) :=
  if cache.length ≠ pathCount then List.replicate pathCount [] else cache

/-- `core::slice::binary_search_by` on the timestamp slice, comparing each probe
against the query time `t` (the comparator is
`probe.partial_cmp(&elapsed).unwrap()`, total on `ℚ`).  `inl i` is Rust's
`Ok(i)` (exact match), `inr i` is `Err(i)` (insertion point).  `fuel` bounds
the loop; `ts.length + 1` always suffices since the interval shrinks every
iteration. -/
def bsGo (ts : List ℚ) (t : ℚ) : Nat → Nat → Nat → Nat ⊕ Nat
  | 0, left, _ => .inr left
  | fuel + 1, left, right =>
      if left < right then
        let mid := left + (right - left) / 2
        let probe := ts.getD mid 0
        if probe < t then bsGo ts t fuel (mid + 1) right
        else if t < probe then bsGo ts t fuel left mid
        else .inl mid
      else .inr left

/-- `curve.keyframe_timestamps.binary_search_by(|probe| probe.partial_cmp(&elapsed).unwrap())`. -/
def binarySearchBy (ts : List ℚ) (t : ℚ) : Nat ⊕ Nat :=
  bsGo ts t (ts.length + 1) 0 ts.length

/-- The `step_start` match of `apply_animation` (lines 613–622): `none` means
the curve is skipped for this frame (finished or not yet started). -/
def findStep (ts : List ℚ) (t : ℚ) : Option Nat :=
  match binarySearchBy ts t with
  | .inl n => if ts.length - 1 ≤ n then none else some n
  | .inr 0 => none
  | .inr n => if ts.length - 1 < n then none else some (n - 1)

/-- `let lerp = (elapsed - ts_start) / (ts_end - ts_start)` for
`step_start = i`. -/
def lerpFactor (ts : List ℚ) (t : ℚ) (i : Nat) : ℚ :=
  (t - ts.getD i 0) / (ts.getD (i + 1) 0 - ts.getD i 0)

/-- Which transform attribute a keyframe list targets. -/
inductive KeyKind where
  | rotation
  | translation
  | scale
  | weights
deriving DecidableEq, Repr

/-- The attribute targeted by a `Keyframes` payload. -/
def kindOf : Keyframes → KeyKind
  | .Rotation _ => .rotation
  | .Translation _ => .translation
  | .Scale _ => .scale
  | .Weights _ => .weights

/-- A recorded scene write: which node, which attribute, and the interpolation
parameters the code applies it with (the numeric `slerp`/`lerp` results are
not re-derived — no claim depends on them). -/
inductive WriteEvent where
  | singleKey (target : Entity) (kind : KeyKind) (weight : ℚ)
  | interpKey (target : Entity) (kind : KeyKind) (stepStart : Nat) (lerp : ℚ) (weight : ℚ)
deriving DecidableEq, Repr

/-- The per-curve body of `apply_animation`'s inner loop: the single-keyframe
shortcut, otherwise the binary search / skip / interpolate logic.  Morph-weight
writes happen only when the target's `morphs` fetch succeeds; transform writes
are guarded one level up (the whole bone is skipped when the `transforms`
fetch fails). -/
def applyCurve (hasMorphs : Bool) (target : Entity) (weight elapsed : ℚ)
    (curve : VariableCurve) : List WriteEvent :=
  if curve.keyframe_timestamps.length = 1 then
    match kindOf curve.keyframes with
    | .weights => if hasMorphs then [.singleKey target .weights weight] else []
    | k => [.singleKey target k weight]
  else
    match findStep curve.keyframe_timestamps elapsed with
    | none => []
    | some i =>
        let lerp := lerpFactor curve.keyframe_timestamps elapsed i
        match kindOf curve.keyframes with
        | .weights => if hasMorphs then [.interpKey target .weights i lerp weight] else []
        | k => [.interpKey target k i lerp weight]

/-- The `for (path, bone_id) in &animation_clip.paths` loop of
`apply_animation`, threading the per-bone path cache and accumulating write and
warning traces.  `none` embeds a Rust panic (`animation.path_cache[*bone_id]`
out of range or `get_curves(*bone_id).unwrap()` failing), unreachable for clips
built through `add_curve_to_path`. -/
def applyBones (w : World) (root : Entity) (weight elapsed : ℚ) (clip : AnimationClip) :
    List (EntityPath × Nat) → List (List (Option Entity)) →
    Option (List (List (Option Entity)) × List WriteEvent × List Warning)
  | [], cache => some (cache, [], [])
  | (path, boneId) :: rest, cache =>
      match cache.get? boneId, clip.get_curves boneId with
      | some cachedPath, some curves =>
          let r := entity_from_path w root path cachedPath
          let cache' := cache.set boneId r.2
          match r.1 with
          | none =>
              (applyBones w root weight elapsed clip rest cache').map
                (fun acc => (acc.1, acc.2.1, .entityNotFound path :: acc.2.2))
          | some target =>
              let hasT := ((w target).map (fun i => i.hasTransform)).getD false
              let hasM := ((w target).map (fun i => i.hasMorphs)).getD false
              if hasT then
                let ws := curves.flatMap (applyCurve hasM target weight elapsed)
                (applyBones w root weight elapsed clip rest cache').map
                  (fun acc => (acc.1, ws ++ acc.2.1, acc.2.2))
              else
                applyBones w root weight elapsed clip rest cache'
      | _, _ => none

/-- The result of one `apply_animation` call: the updated `PlayingAnimation`
plus the scene-write and diagnostic traces it produced. -/
structure ApplyResult where
  anim : PlayingAnimation
  writes : List WriteEvent
  warnings : List Warning
deriving DecidableEq, Repr

/-- `apply_animation`.  `clips` is the `Assets<AnimationClip>` store; `fuel`
bounds the aliasing guard's upward walk; `none` embeds non-termination of that
walk or a Rust panic inside the bone loop. -/
def apply_animation (weight : ℚ) (anim : PlayingAnimation) (paused : Bool)
    (root : Entity) (dt : ℚ) (clips : Handle → Option AnimationClip) (w : World)
    (maybeParent : Option Entity) (fuel : Nat) : Option ApplyResult :=
  match anim.animation_clip with
  | none => some ⟨anim, [], []⟩
  | some h =>
      match clips h with
      | none => some ⟨anim, [], []⟩
      | some clip =>
          let adv := advanceAnimation anim paused clip.duration dt
          let cache0 := refreshPathCache adv.1.path_cache clip.paths.length
          let anim2 := { adv.1 with path_cache := cache0 }
          match verify_no_ancestor_player w fuel maybeParent with
          | none => none
          | some false => some ⟨anim2, [], [.ancestorConflict root]⟩
          | some true =>
              match applyBones w root weight adv.2 clip clip.paths cache0 with
              | none => none
              | some acc => some ⟨{ anim2 with path_cache := acc.1 }, acc.2.1, acc.2.2⟩

/-! Concrete objects used by witness and counterexample theorems. -/

/-- A clip with no curves and duration 1 second. -/
def exClip : AnimationClip := { curves := [], paths := [], duration := 1 }

/-- A clip store resolving every handle to `exClip`. -/
def exClips : Handle → Option AnimationClip := fun _ => some exClip

/-- A forward-playing repeat-forever animation at elapsed 1 s. -/
def exAnim : PlayingAnimation :=
  { repeatMode := .Forever, speed := 1, elapsed := 1, animation_clip := some 0,
    path_cache := [], completions := 0 }

/-- A reverse-playing repeat-forever animation at elapsed 0.1 s. -/
def exAnim3 : PlayingAnimation :=
  { repeatMode := .Forever, speed := -1, elapsed := 1/10, animation_clip := some 0,
    path_cache := [], completions := 0 }

/-- A two-node world: entity 0 hosts an `AnimationPlayer` and is the parent of
entity 1. -/
def exWorld : World := fun e =>
  if e = 0 then some ⟨some "root", some [], true, none, true, false⟩
  else if e = 1 then some ⟨some "child", some [], false, some 0, true, false⟩
  else none

/-- A clip whose stored paths are `["A"]` and the empty path, in that order. -/
def exClip9 : AnimationClip :=
  { curves := [[], []]
    paths := [({ parts := ["A"] }, 0), ({ parts := [] }, 1)]
    duration := 0 }

/-- A player whose active animation plays clip 0 with a pending transition. -/
def exPlayer : AnimationPlayer :=
  { paused := false
    animation := { defaultPlayingAnimation with animation_clip := some 0 }
    transitions := [⟨1, 1, defaultPlayingAnimation⟩] }

/-- Maximum of a list of rationals, with 0 for the empty list (the default
clip's duration). -/
def maxOf (l : List ℚ) : ℚ := l.foldr max 0

/-- The maximum last-timestamp across all stored tracks of a bone table. -/
def tracksMax (cs : List (List VariableCurve)) : ℚ :=
  maxOf ((cs.flatten).map lastTimestampOr0)

/-- Spec-side duration: the maximum over all stored tracks of the track's last
timestamp (taking 0 for a track with no timestamps). -/
def specDuration (clip : AnimationClip) : ℚ := tracksMax clip.curves

/-- Well-formedness maintained by `add_curve_to_path`: every bone id stored in
the path table indexes into the curve table. -/
def ClipWF (clip : AnimationClip) : Prop :=
  ∀ p i, lookupPath clip.paths p = some i → i < clip.curves.length

/-! Theorems. -/

/-- The first component of `advanceAnimation`, spelled out. -/
theorem advance_fst (anim : PlayingAnimation) (paused : Bool) (d dt : ℚ) :
    (advanceAnimation anim paused d dt).1 =
      { anim with
        elapsed := newElapsed anim paused dt
        completions :=
          if crossesBoundary anim paused d dt then anim.completions + 1
          else anim.completions } := rfl

/-- Claim C10: `start(handle)` — and therefore `play(handle)` when the
requested clip is not already the active unpaused one — resets the whole
active-animation state to defaults (speed 1.0, repeat `Never`, elapsed 0.0,
completions 0, empty path cache), discarding any previously set speed or
repeat policy, and clears the entire transitions list. -/
theorem C10_start_resets (p : AnimationPlayer) (h : Handle) :
    (p.start h).animation =
      { repeatMode := .Never, speed := 1, elapsed := 0, animation_clip := some h,
        path_cache := [], completions := 0 } ∧
    (p.start h).transitions = [] ∧
    ((¬ p.is_playing_clip h ∨ p.is_paused) → p.play h = p.start h) := by
  refine ⟨rfl, rfl, fun hc => ?_⟩
  unfold AnimationPlayer.play
  rw [if_pos hc]

/-- Witness for C10 at a concrete player: `exPlayer` is playing clip 0, so
`play 1` resets it just as `start 1` does. -/
theorem C10_start_resets_witness :
    (¬ exPlayer.is_playing_clip 1 ∨ exPlayer.is_paused) ∧
    exPlayer.play 1 = exPlayer.start 1 := by
  have hc : ¬ exPlayer.is_playing_clip 1 ∨ exPlayer.is_paused :=
    Or.inl (by simp [exPlayer, AnimationPlayer.is_playing_clip,
      AnimationPlayer.animation_clip, defaultPlayingAnimation])
  exact ⟨hc, (C10_start_resets exPlayer 1).2.2 hc⟩

/-- Claim C8: if the active animation has no clip handle, or its handle does
not resolve in the clip store, the frame's apply step leaves that animation's
state entirely unchanged, performs no scene writes, and surfaces no error
(no warning is emitted). -/
theorem C8_missing_clip (weight : ℚ) (anim : PlayingAnimation) (paused : Bool)
    (root : Entity) (dt : ℚ) (clips : Handle → Option AnimationClip) (w : World)
    (mp : Option Entity) (fuel : Nat) :
    (anim.animation_clip = none →
      apply_animation weight anim paused root dt clips w mp fuel = some ⟨anim, [], []⟩) ∧
    (∀ h, anim.animation_clip = some h → clips h = none →
      apply_animation weight anim paused root dt clips w mp fuel = some ⟨anim, [], []⟩) := by
  constructor
  · intro hn
    unfold apply_animation
    rw [hn]
  · intro h hs hc
    unfold apply_animation
    rw [hs]
    simp [hc]

/-- Witness for C8: the default (idle) animation has no clip handle and is
returned unchanged with empty traces. -/
theorem C8_missing_clip_witness :
    defaultPlayingAnimation.animation_clip = none ∧
    apply_animation 1 defaultPlayingAnimation false 0 1 exClips exWorld none 5 =
      some ⟨defaultPlayingAnimation, [], []⟩ :=
  ⟨rfl, (C8_missing_clip 1 defaultPlayingAnimation false 0 1 exClips exWorld none 5).1 rfl⟩

/-- All-nonempty paths let `compatibleWithGo` finish without a panic. -/
theorem compatibleWithGo_total (name : Name) :
    ∀ l : List (EntityPath × Nat), (∀ pr ∈ l, pr.1.parts ≠ []) →
      ∃ b, compatibleWithGo name l = some b := by
  intro l
  induction l with
  | nil => exact fun _ => ⟨true, rfl⟩
  | cons pr rest ih =>
      intro hne
      obtain ⟨p, i⟩ := pr
      obtain ⟨hd, tl, hparts⟩ :=
        List.exists_cons_of_ne_nil (hne (p, i) (List.mem_cons_self _ _))
      simp only at hparts
      simp only [compatibleWithGo, hparts]
      by_cases hh : hd = name
      · rw [if_pos hh]
        exact ih fun q hq => hne q (List.mem_cons_of_mem _ hq)
      · exact ⟨false, by rw [if_neg hh]⟩

/-- `compatibleWithGo` panics when it reaches an empty path: every earlier
path's head must have matched. -/
theorem compatibleWithGo_panics (name : Name) :
    ∀ (pre : List (EntityPath × Nat)) (p : EntityPath) (i : Nat)
      (rest : List (EntityPath × Nat)),
      p.parts = [] →
      (∀ pr ∈ pre, ∃ hd tl, pr.1.parts = hd :: tl ∧ hd = name) →
      compatibleWithGo name (pre ++ (p, i) :: rest) = none := by
  intro pre
  induction pre with
  | nil =>
      intro p i rest hp _
      simp [compatibleWithGo, hp]
  | cons q pre ih =>
      intro p i rest hp hpre
      obtain ⟨qp, qi⟩ := q
      obtain ⟨hd, tl, hq, hhd⟩ := hpre (qp, qi) (List.mem_cons_self _ _)
      simp only at hq
      rw [List.cons_append]
      simp only [compatibleWithGo, hq]
      rw [if_pos hhd]
      exact ih p i rest hp fun pr hpr => hpre pr (List.mem_cons_of_mem _ hpr)

/-- Counterexample to claim C9: `exClip9` stores a path with an empty parts
list, yet `compatible_with "B"` does not panic — the short-circuiting `all`
returns `false` at the earlier mismatching path `["A"]` before the empty path
is ever indexed. -/
theorem C9_counterexample :
    (∃ pr ∈ exClip9.paths, pr.1.parts = []) ∧
    exClip9.compatible_with "B" = some false := by
  constructor
  · exact ⟨({ parts := [] }, 1), by simp [exClip9]⟩
  · decide

/-- Claim C9, amended: `compatible_with(name)` indexes the first segment of
each stored path in iteration order until the first mismatch.  It returns true
vacuously for a clip with no stored paths, for every name; it never panics
when every stored path has a non-empty parts list (so non-empty paths are the
precondition for panic-freedom); and it does panic (out-of-bounds index) when
it reaches a stored path with an empty parts list, i.e. whenever some stored
path is empty and every path before it matches the queried name. -/
theorem C9_amended (clip : AnimationClip) (name : Name) :
    (clip.paths = [] → clip.compatible_with name = some true) ∧
    ((∀ pr ∈ clip.paths, pr.1.parts ≠ []) → ∃ b, clip.compatible_with name = some b) ∧
    (∀ pre p i rest, clip.paths = pre ++ (p, i) :: rest → p.parts = [] →
      (∀ pr ∈ pre, ∃ hd tl, pr.1.parts = hd :: tl ∧ hd = name) →
      clip.compatible_with name = none) := by
  refine ⟨fun hnil => ?_, fun hne => ?_, fun pre p i rest hsplit hp hpre => ?_⟩
  · unfold AnimationClip.compatible_with
    rw [hnil]
    rfl
  · exact compatibleWithGo_total name clip.paths hne
  · unfold AnimationClip.compatible_with
    rw [hsplit]
    exact compatibleWithGo_panics name pre p i rest hp hpre

/-- Witness for C9 (amended) at concrete clips: the pathless `exClip` is
vacuously compatible with any name, and `exClip9` panics when queried with
"A" (its empty second path is reached). -/
theorem C9_amended_witness :
    exClip.compatible_with "B" = some true ∧
    exClip9.compatible_with "A" = none := by
  constructor
  · exact (C9_amended exClip "B").1 rfl
  · exact (C9_amended exClip9 "A").2.2 [({ parts := ["A"] }, 0)] { parts := [] } 1 []
      rfl rfl (by intro pr hpr
                  simp only [List.mem_singleton] at hpr
                  exact ⟨"A", [], by rw [hpr]; exact ⟨rfl, rfl⟩⟩)

/-- Counterexample to claim C4: a one-bone cache holding a resolved entity,
confronted with a clip of two paths (length mismatch), is replaced wholesale
with empty per-bone caches — the entry at the retained index 0 is *not*
preserved. -/
theorem C4_counterexample :
    refreshPathCache [[some 7]] 2 = [[], []] ∧
    ([[], []] : List (List (Option Entity))).getD 0 [] ≠ [some 7] := by
  exact ⟨rfl, by decide⟩

/-- Claim C4, amended: the per-bone path cache persists across frames — it is
untouched whenever its length matches the clip's path count — and the only
invalidation event is a length mismatch, on which the *entire* cache is
replaced with fresh empty per-bone entries (existing entries are discarded,
not preserved).  The inner per-path cache, by contrast, is resized with
`Vec::resize`, which does preserve existing entries at retained indices. -/
theorem C4_amended (cache : List (List (Option Entity))) (n : Nat) :
    (cache.length = n → refreshPathCache cache n = cache) ∧
    (cache.length ≠ n → refreshPathCache cache n = List.replicate n []) ∧
    (∀ (l : List (Option Entity)) (m i : Nat) (v d : Option Entity),
      i < l.length → i < m → (listResize l m v).getD i d = l.getD i d) := by
  refine ⟨fun he => ?_, fun hne => ?_, fun l m i v d hil him => ?_⟩
  · unfold refreshPathCache
    rw [if_neg (by omega)]
  · unfold refreshPathCache
    rw [if_pos hne]
  · unfold listResize
    have htake : i < (l.take m).length := by
      rw [List.length_take]
      omega
    rw [List.getD_eq_getElem?_getD, List.getElem?_append_left htake,
      List.getElem?_take_of_lt him, ← List.getD_eq_getElem?_getD]

/-- Witness for C4 (amended) at concrete caches: a matching-length cache is
untouched; a mismatched one is emptied; the inner resize from length 1 to
length 2 keeps the cached entity at index 0. -/
theorem C4_amended_witness :
    refreshPathCache [[some 7]] 1 = [[some 7]] ∧
    refreshPathCache [[some 7]] 2 = List.replicate 2 [] ∧
    (listResize [some 7] 2 none).getD 0 none = [some 7].getD 0 none := by
  refine ⟨(C4_amended [[some 7]] 1).1 rfl, (C4_amended [[some 7]] 2).2.1 (by decide), ?_⟩
  exact (C4_amended [] 0).2.2 [some 7] 2 0 none none (by decide) (by decide)

/-- Counterexample to claim C3: with `speed = -1`, a clip of duration 1 and a
frame advancing `elapsed` from 0.1 to −0.2, the wrapped elapsed time is
`duration − 0.2 = 0.8`, not `duration − 0.1 = 0.9` as claimed. -/
theorem C3_counterexample :
    exAnim3.speed = -1 ∧ exAnim3.elapsed = 1/10 ∧
    newElapsed exAnim3 false (3/10) = -(1/5) ∧
    (advanceAnimation exAnim3 false 1 (3/10)).2 = 1 - 2/10 ∧
    ((1 : ℚ) - 2/10 ≠ 1 - 1/10) := by
  refine ⟨rfl, rfl, ?_, ?_, by norm_num⟩
  · norm_num [newElapsed, exAnim3, PlayingAnimation.finished]
  · norm_num [advanceAnimation, newElapsed, crossesBoundary, fmod, exAnim3,
      PlayingAnimation.finished]

/-- Claim C3, amended: with `speed = -1.0` and a clip of positive duration, a
single unpaused frame step advancing elapsed time from 0.1 to −0.2 (i.e.
`dt = 0.3`) increments `completions` by 1 and yields a wrapped elapsed time of
`duration − 0.2`. -/
theorem C3_reverse_wrap (anim : PlayingAnimation) (d dt : ℚ)
    (hs : anim.speed = -1) (he : anim.elapsed = 1/10) (hdt : dt = 3/10)
    (hf : anim.finished = false) (hd : 0 < d) :
    (advanceAnimation anim false d dt).1.completions = anim.completions + 1 ∧
    (advanceAnimation anim false d dt).1.elapsed = -(1/5) ∧
    (advanceAnimation anim false d dt).2 = d - 1/5 := by
  have hnew : newElapsed anim false dt = -(1/5) := by
    rw [newElapsed, if_pos (by simp [hf])]
    rw [hs, he, hdt]
    norm_num
  have hcross : crossesBoundary anim false d dt := by
    right
    rw [hnew, hs]
    norm_num
  refine ⟨?_, ?_, ?_⟩
  · rw [advance_fst]
    simp only [if_pos hcross]
  · rw [advance_fst]
    exact hnew
  · simp only [advanceAnimation, hnew]
    rw [if_neg (show ¬ d ≤ -(1/5) by linarith)]
    rw [if_pos (show (-(1/5) : ℚ) < 0 by norm_num)]
    ring

/-- Witness for C3 (amended) at `exAnim3` with duration 1: completions go from
0 to 1 and the wrapped elapsed time is 0.8. -/
theorem C3_reverse_wrap_witness :
    (advanceAnimation exAnim3 false 1 (3/10)).1.completions = exAnim3.completions + 1 ∧
    (advanceAnimation exAnim3 false 1 (3/10)).2 = 1 - 1/5 :=
  ⟨(C3_reverse_wrap exAnim3 1 (3/10) rfl rfl rfl rfl (by norm_num)).1,
   (C3_reverse_wrap exAnim3 1 (3/10) rfl rfl rfl rfl (by norm_num)).2.2⟩

/-- If the upward walk terminates and some reachable ancestor hosts a player,
the walk reports `false`. -/
theorem verifyLoop_false_of_hostsUp (w : World) :
    ∀ fuel e b, verifyLoop w fuel e = some b → HostsUp w e → b = false := by
  intro fuel
  induction fuel with
  | zero => intro e b hb; simp [verifyLoop] at hb
  | succ f ih =>
      intro e b hb hh
      cases hh with
      | here e info hinfo hplayer =>
          rw [verifyLoop, hinfo] at hb
          simp only [hplayer, if_true] at hb
          exact (Option.some.injEq _ _).mp hb.symm
      | up e info p hinfo hparent hup =>
          rw [verifyLoop, hinfo] at hb
          by_cases hp : info.hasPlayer
          · simp only [hp, if_true] at hb
            exact (Option.some.injEq _ _).mp hb.symm
          · simp only [hp, if_false] at hb
            rw [hparent] at hb
            exact ih p b hb hup

/-- If the walk terminates with `false`, some reachable ancestor hosts a
player. -/
theorem hostsUp_of_verifyLoop_false (w : World) :
    ∀ fuel e, verifyLoop w fuel e = some false → HostsUp w e := by
  intro fuel
  induction fuel with
  | zero => intro e hb; simp [verifyLoop] at hb
  | succ f ih =>
      intro e hb
      rw [verifyLoop] at hb
      cases hinfo : w e with
      | none => rw [hinfo] at hb; simp at hb
      | some info =>
          rw [hinfo] at hb
          by_cases hp : info.hasPlayer
          · exact HostsUp.here e info hinfo (by simpa using hp)
          · simp only [hp, if_false] at hb
            cases hparent : info.parent with
            | none => rw [hparent] at hb; simp at hb
            | some p =>
                rw [hparent] at hb
                exact HostsUp.up e info p hinfo hparent (ih p hb)

/-- Claim C5: `verify_no_ancestor_player` returns true for a player with no
parent link, and — whenever its upward walk terminates — returns false iff
some entity reachable by following parent links upward from the player's
parent hosts an `AnimationPlayer`. -/
theorem C5_guard (w : World) (fuel : Nat) :
    verify_no_ancestor_player w fuel none = some true ∧
    ∀ p b, verify_no_ancestor_player w fuel (some p) = some b →
      (b = false ↔ HostsUp w p) := by
  refine ⟨rfl, fun p b hb => ⟨fun hbf => ?_, fun hh => ?_⟩⟩
  · exact hostsUp_of_verifyLoop_false w fuel p (hbf ▸ hb)
  · exact verifyLoop_false_of_hostsUp w fuel p b hb hh

/-- Witness for C5 in `exWorld`: entity 1's parent is entity 0, which hosts a
player, so the guard reports unsafe and the reachability predicate holds. -/
theorem C5_guard_witness : HostsUp exWorld 0 :=
  ((C5_guard exWorld 5).2 0 false (by decide)).mp rfl

/-- When the clip resolves, the animation state returned by `apply_animation`
always carries the advanced elapsed time and the boundary-crossing completion
count, whatever the guard and the bone loop do afterwards. -/
theorem apply_resolved_anim (weight : ℚ) (anim : PlayingAnimation) (paused : Bool)
    (root : Entity) (dt : ℚ) (clips : Handle → Option AnimationClip) (w : World)
    (mp : Option Entity) (fuel : Nat) (h : Handle) (clip : AnimationClip)
    (res : ApplyResult)
    (hh : anim.animation_clip = some h) (hc : clips h = some clip)
    (hres : apply_animation weight anim paused root dt clips w mp fuel = some res) :
    res.anim.elapsed = newElapsed anim paused dt ∧
    res.anim.completions = (if crossesBoundary anim paused clip.duration dt
                            then anim.completions + 1 else anim.completions) ∧
    res.anim.repeatMode = anim.repeatMode ∧
    res.anim.speed = anim.speed ∧
    res.anim.animation_clip = anim.animation_clip := by
  simp only [apply_animation, hh, hc] at hres
  cases hv : verify_no_ancestor_player w fuel mp with
  | none => rw [hv] at hres; cases hres
  | some b =>
      rw [hv] at hres
      cases b with
      | false =>
          simp only [Option.some.injEq] at hres
          subst hres
          simp [advance_fst, hh]
      | true =>
          cases hab : applyBones w root weight
              (advanceAnimation anim paused clip.duration dt).2 clip clip.paths
              (refreshPathCache
                (advanceAnimation anim paused clip.duration dt).1.path_cache
                clip.paths.length) with
          | none => rw [hab] at hres; cases hres
          | some acc =>
              rw [hab] at hres
              simp only [Option.some.injEq] at hres
              subst hres
              simp [advance_fst, hh]

/-- Claim C2: for every playing animation whose clip resolves, a frame
increments `completions` by exactly 1 exactly when the newly advanced,
still-unwrapped elapsed time crosses the clip boundary in the direction of
travel (elapsed > duration with speed > 0, or elapsed < 0 with speed < 0),
and leaves it unchanged otherwise; under `Count(3)` the animation is finished
precisely when `completions` has reached 3. -/
theorem C2_completions (weight : ℚ) (anim : PlayingAnimation) (paused : Bool)
    (root : Entity) (dt : ℚ) (clips : Handle → Option AnimationClip) (w : World)
    (mp : Option Entity) (fuel : Nat) (h : Handle) (clip : AnimationClip)
    (res : ApplyResult)
    (hh : anim.animation_clip = some h) (hc : clips h = some clip)
    (hres : apply_animation weight anim paused root dt clips w mp fuel = some res) :
    (crossesBoundary anim paused clip.duration dt →
        res.anim.completions = anim.completions + 1) ∧
    (¬ crossesBoundary anim paused clip.duration dt →
        res.anim.completions = anim.completions) ∧
    (anim.repeatMode = .Count 3 →
        (res.anim.finished = true ↔ 3 ≤ res.anim.completions)) := by
  obtain ⟨-, hcomp, hrep, -, -⟩ :=
    apply_resolved_anim weight anim paused root dt clips w mp fuel h clip res hh hc hres
  refine ⟨fun hcr => ?_, fun hncr => ?_, fun hcount => ?_⟩
  · rw [hcomp, if_pos hcr]
  · rw [hcomp, if_neg hncr]
  · rw [hcount] at hrep
    simp [PlayingAnimation.finished, hrep]

/-- Witness for C2 at a concrete frame: `exAnim` (elapsed 1, speed 1) advanced
by half a second against the one-second `exClip` crosses the boundary and its
completion count goes from 0 to 1. -/
theorem C2_completions_witness :
    crossesBoundary exAnim false exClip.duration (1/2) ∧
    ({ exAnim with elapsed := 3/2, completions := 1 } : PlayingAnimation).completions
      = exAnim.completions + 1 := by
  have hcross : crossesBoundary exAnim false exClip.duration (1/2) := by
    left
    constructor
    · norm_num [newElapsed, exAnim, exClip, PlayingAnimation.finished]
    · norm_num [exAnim]
  have hres : apply_animation 1 exAnim false 0 (1/2) exClips exWorld none 5 =
      some ⟨{ exAnim with elapsed := 3/2, completions := 1 }, [], []⟩ := by
    norm_num [apply_animation, advanceAnimation, newElapsed, crossesBoundary, fmod,
      exAnim, exClip, exClips, exWorld, PlayingAnimation.finished, refreshPathCache,
      verify_no_ancestor_player, applyBones]
  exact ⟨hcross,
    (C2_completions 1 exAnim false 0 (1/2) exClips exWorld none 5 0 exClip
      ⟨{ exAnim with elapsed := 3/2, completions := 1 }, [], []⟩ rfl rfl hres).1 hcross⟩

/-- Counterexample to claim C1: with an ancestor player (the guard reports
unsafe), the frame still advances the animation's elapsed time from 1 to 1.5
and its completion count from 0 to 1 — the state is *not* left untouched. -/
theorem C1_counterexample :
    verify_no_ancestor_player exWorld 5 (some 0) = some false ∧
    apply_animation 1 exAnim false 1 (1/2) exClips exWorld (some 0) 5 =
      some ⟨{ exAnim with elapsed := 3/2, completions := 1 }, [],
            [.ancestorConflict 1]⟩ ∧
    (3/2 : ℚ) ≠ exAnim.elapsed ∧ (1 : Nat) ≠ exAnim.completions := by
  refine ⟨by decide, ?_, by norm_num [exAnim], by norm_num [exAnim]⟩
  norm_num [apply_animation, advanceAnimation, newElapsed, crossesBoundary, fmod,
    exAnim, exClip, exClips, exWorld, PlayingAnimation.finished, refreshPathCache,
    verify_no_ancestor_player, verifyLoop, applyBones]

/-- Claim C1, amended: if the aliasing guard reports unsafe, the rest of the
player's update for that frame is skipped — no scene node is written and the
only effect is one diagnostic — but the animation state is *not* untouched:
before the guard runs, the elapsed time has already been advanced, the
completion count updated on a boundary crossing, and the path cache replaced
when its length mismatched the clip's path count. -/
theorem C1_unsafe_guard (weight : ℚ) (anim : PlayingAnimation) (paused : Bool)
    (root : Entity) (dt : ℚ) (clips : Handle → Option AnimationClip) (w : World)
    (mp : Option Entity) (fuel : Nat) (h : Handle) (clip : AnimationClip)
    (hh : anim.animation_clip = some h) (hc : clips h = some clip)
    (hguard : verify_no_ancestor_player w fuel mp = some false) :
    apply_animation weight anim paused root dt clips w mp fuel =
      some ⟨{ anim with
                elapsed := newElapsed anim paused dt
                completions :=
                  if crossesBoundary anim paused clip.duration dt
                  then anim.completions + 1 else anim.completions
                path_cache :=
                  refreshPathCache anim.path_cache clip.paths.length },
            [], [.ancestorConflict root]⟩ := by
  simp only [apply_animation, hh, hc, hguard, advance_fst]

/-- Witness for C1 (amended) at a concrete frame: entity 1's player, whose
parent entity 0 also hosts a player, has its whole sampling pass skipped with
one diagnostic. -/
theorem C1_unsafe_guard_witness :
    verify_no_ancestor_player exWorld 5 (some 0) = some false ∧
    apply_animation 1 exAnim true 1 (1/2) exClips exWorld (some 0) 5 =
      some ⟨{ exAnim with
                elapsed := newElapsed exAnim true (1/2)
                completions :=
                  if crossesBoundary exAnim true exClip.duration (1/2)
                  then exAnim.completions + 1 else exAnim.completions
                path_cache := refreshPathCache exAnim.path_cache exClip.paths.length },
            [], [.ancestorConflict 1]⟩ :=
  ⟨by decide,
   C1_unsafe_guard 1 exAnim true 1 (1/2) exClips exWorld (some 0) 5 0 exClip
     rfl rfl (by decide)⟩

/-- `maxOf` is non-negative (its seed is 0). -/
theorem maxOf_nonneg (l : List ℚ) : 0 ≤ maxOf l := by
  induction l with
  | nil => exact le_refl 0
  | cons a t ih => exact le_trans ih (le_max_right a (maxOf t))

/-- `maxOf` distributes over append. -/
theorem maxOf_append (a b : List ℚ) : maxOf (a ++ b) = max (maxOf a) (maxOf b) := by
  induction a with
  | nil =>
      rw [List.nil_append]
      exact (max_eq_right (maxOf_nonneg b)).symm
  | cons x t ih =>
      simp only [List.cons_append, maxOf, List.foldr_cons] at ih ⊢
      rw [ih, max_assoc]

/-- `tracksMax` is non-negative. -/
theorem tracksMax_nonneg (cs : List (List VariableCurve)) : 0 ≤ tracksMax cs :=
  maxOf_nonneg _

/-- `tracksMax` of a cons splits into the head bucket and the tail. -/
theorem tracksMax_cons (b : List VariableCurve) (t : List (List VariableCurve)) :
    tracksMax (b :: t) = max (maxOf (b.map lastTimestampOr0)) (tracksMax t) := by
  simp only [tracksMax, List.flatten_cons, List.map_append, maxOf_append]

/-- Appending a fresh one-track bone raises `tracksMax` to the new track's
last timestamp when larger. -/
theorem tracksMax_snoc_new (cs : List (List VariableCurve)) (c : VariableCurve) :
    tracksMax (cs ++ [[c]]) = max (tracksMax cs) (lastTimestampOr0 c) := by
  simp only [tracksMax, List.flatten_append, List.map_append, maxOf_append]
  have h1 : maxOf (([[c]].flatten).map lastTimestampOr0) = max (lastTimestampOr0 c) 0 := rfl
  rw [h1, max_comm (lastTimestampOr0 c) 0, ← max_assoc,
    max_eq_left (maxOf_nonneg ((cs.flatten).map lastTimestampOr0))]

/-- Pushing one more track onto an existing bone raises `tracksMax` to the new
track's last timestamp when larger. -/
theorem tracksMax_set (c : VariableCurve) :
    ∀ (cs : List (List VariableCurve)) (i : Nat), i < cs.length →
      tracksMax (cs.set i (cs.getD i [] ++ [c]))
        = max (tracksMax cs) (lastTimestampOr0 c) := by
  intro cs
  induction cs with
  | nil => intro i hi; simp at hi
  | cons b t ih =>
      intro i hi
      cases i with
      | zero =>
          simp only [List.getD_cons_zero, List.set_cons_zero]
          rw [tracksMax_cons, List.map_append, maxOf_append, tracksMax_cons]
          have h1 : maxOf ([c].map lastTimestampOr0) = max (lastTimestampOr0 c) 0 := rfl
          rw [h1, max_assoc, max_assoc, max_eq_right (tracksMax_nonneg t),
            max_comm (lastTimestampOr0 c) (tracksMax t), ← max_assoc]
      | succ j =>
          simp only [List.getD_cons_succ, List.set_cons_succ]
          rw [tracksMax_cons, tracksMax_cons, ih j (by simpa using hi), ← max_assoc]

/-- Each `add_curve_to_path` sets the duration to the max of the previous
duration and the added curve's last timestamp (or 0). -/
theorem add_curve_duration (clip : AnimationClip) (p : EntityPath) (c : VariableCurve) :
    (clip.add_curve_to_path p c).duration = max clip.duration (lastTimestampOr0 c) := by
  unfold AnimationClip.add_curve_to_path
  cases lookupPath clip.paths p <;> rfl

/-- A lookup in a path table extended by one entry either hits the old table
or returns the new entry's bone id. -/
theorem lookupPath_append_singleton (x : EntityPath × Nat) (q : EntityPath) (i : Nat) :
    ∀ paths : List (EntityPath × Nat),
      lookupPath (paths ++ [x]) q = some i →
      lookupPath paths q = some i ∨ i = x.2 := by
  intro paths
  induction paths with
  | nil =>
      intro hq
      by_cases hx : x.1 = q
      · right
        have hfind : List.find? (fun pr => decide (pr.1 = q)) [x] = some x :=
          List.find?_cons_of_pos _ (decide_eq_true hx)
        rw [List.nil_append, lookupPath, hfind, Option.map_some'] at hq
        exact (Option.some.injEq _ _).mp hq.symm
      · exfalso
        have hfind : List.find? (fun pr => decide (pr.1 = q)) [x] = none := by
          rw [List.find?_cons_of_neg _ (by simpa using hx)]
          rfl
        rw [List.nil_append, lookupPath, hfind] at hq
        exact Option.noConfusion hq
  | cons a rest ih =>
      intro hq
      rw [List.cons_append] at hq
      by_cases ha : a.1 = q
      · left
        have hfind : ∀ l, List.find? (fun pr => decide (pr.1 = q)) (a :: l) = some a :=
          fun l => List.find?_cons_of_pos _ (decide_eq_true ha)
        rw [lookupPath, hfind] at hq
        rw [lookupPath, hfind]
        exact hq
      · have hfind : ∀ l, List.find? (fun pr => decide (pr.1 = q)) (a :: l)
            = List.find? (fun pr => decide (pr.1 = q)) l :=
          fun l => List.find?_cons_of_neg _ (by simpa using ha)
        rw [lookupPath, hfind] at hq
        have hrec : lookupPath (rest ++ [x]) q = some i := hq
        rcases ih hrec with h1 | h2
        · left
          rw [lookupPath, hfind]
          exact h1
        · exact Or.inr h2

/-- One `add_curve_to_path` step preserves well-formedness and updates the
spec-side duration by a max. -/
theorem add_curve_spec (clip : AnimationClip) (p : EntityPath) (c : VariableCurve)
    (hwf : ClipWF clip) :
    ClipWF (clip.add_curve_to_path p c) ∧
    specDuration (clip.add_curve_to_path p c)
      = max (specDuration clip) (lastTimestampOr0 c) := by
  unfold AnimationClip.add_curve_to_path
  cases hl : lookupPath clip.paths p with
  | some boneId =>
      have hb : boneId < clip.curves.length := hwf p boneId hl
      constructor
      · intro q i hq
        simp only [lookupPath] at hq ⊢
        simpa [List.length_set] using hwf q i hq
      · simpa [specDuration] using tracksMax_set c clip.curves boneId hb
  | none =>
      constructor
      · intro q i hq
        simp only at hq
        rcases lookupPath_append_singleton (p, clip.curves.length) q i clip.paths hq with
          hold | hnew
        · have := hwf q i hold
          simp only [List.length_append, List.length_singleton]
          omega
        · simp only [List.length_append, List.length_singleton, hnew]
          omega
      · simpa [specDuration] using tracksMax_snoc_new clip.curves c

/-- Folding `add_curve_to_path` preserves the duration invariant. -/
theorem buildClip_invariant (l : List (EntityPath × VariableCurve)) :
    ∀ clip : AnimationClip, ClipWF clip → clip.duration = specDuration clip →
      (l.foldl (fun cl pc => cl.add_curve_to_path pc.1 pc.2) clip).duration
        = specDuration (l.foldl (fun cl pc => cl.add_curve_to_path pc.1 pc.2) clip) := by
  induction l with
  | nil => intro clip _ h2; exact h2
  | cons pc rest ih =>
      intro clip h1 h2
      simp only [List.foldl_cons]
      exact ih (clip.add_curve_to_path pc.1 pc.2) (add_curve_spec clip pc.1 pc.2 h1).1
        (by rw [add_curve_duration, h2, (add_curve_spec clip pc.1 pc.2 h1).2])

/-- Claim C7: for every clip built from the default clip by `add_curve_to_path`
calls, `duration()` equals the maximum over all stored tracks of the track's
last timestamp (0 for a timestamp-less track); each call sets the duration to
`max(previous, last-or-0)`, so the duration is monotonically non-decreasing
as curves are added. -/
theorem C7_duration (l : List (EntityPath × VariableCurve)) (clip : AnimationClip)
    (p : EntityPath) (c : VariableCurve) :
    (buildClip l).duration = specDuration (buildClip l) ∧
    (clip.add_curve_to_path p c).duration = max clip.duration (lastTimestampOr0 c) ∧
    clip.duration ≤ (clip.add_curve_to_path p c).duration := by
  refine ⟨?_, add_curve_duration clip p c, ?_⟩
  · exact buildClip_invariant l AnimationClip.defaultClip
      (fun q i hq => by simp [lookupPath, AnimationClip.defaultClip] at hq) rfl
  · rw [add_curve_duration]
    exact le_max_left _ _

/-- Strictly increasing timestamps compare by index (with the `getD` view used
by the search). -/
theorem sorted_getD_lt {ts : List ℚ} (hs : List.Pairwise (· < ·) ts)
    {i j : Nat} (hij : i < j) (hj : j < ts.length) :
    ts.getD i 0 < ts.getD j 0 := by
  have hi : i < ts.length := lt_trans hij hj
  rw [List.getD_eq_getElem?_getD, List.getD_eq_getElem?_getD,
    List.getElem?_eq_getElem hi, List.getElem?_eq_getElem hj]
  exact List.pairwise_iff_getElem.mp hs i j hi hj hij

/-- Weak version of `sorted_getD_lt`. -/
theorem sorted_getD_le {ts : List ℚ} (hs : List.Pairwise (· < ·) ts)
    {i j : Nat} (hij : i ≤ j) (hj : j < ts.length) :
    ts.getD i 0 ≤ ts.getD j 0 := by
  rcases Nat.lt_or_ge i j with h | h
  · exact le_of_lt (sorted_getD_lt hs h hj)
  · have : i = j := Nat.le_antisymm hij h
    rw [this]

/-- Invariant-carrying correctness of the binary-search loop: on a strictly
sorted slice, `Ok i` means an exact hit and `Err i` means everything left of
`i` is below the query and everything from `i` on is above it. -/
theorem bsGo_spec (ts : List ℚ) (t : ℚ) (hs : List.Pairwise (· < ·) ts) :
    ∀ fuel left right, right - left < fuel → left ≤ right → right ≤ ts.length →
      (∀ j, j < left → ts.getD j 0 < t) →
      (∀ j, right ≤ j → j < ts.length → t < ts.getD j 0) →
      ((∀ i, bsGo ts t fuel left right = .inl i → i < ts.length ∧ ts.getD i 0 = t) ∧
       (∀ i, bsGo ts t fuel left right = .inr i →
          i ≤ ts.length ∧ (∀ j, j < i → ts.getD j 0 < t) ∧
          (∀ j, i ≤ j → j < ts.length → t < ts.getD j 0))) := by
  intro fuel
  induction fuel with
  | zero => intro left right hf; omega
  | succ f ih =>
      intro left right hf hlr hrlen hlow hhigh
      by_cases hlt : left < right
      · have hmid_lt : left + (right - left) / 2 < right := by omega
        have hmid_ge : left ≤ left + (right - left) / 2 := by omega
        have hmid_len : left + (right - left) / 2 < ts.length := by omega
        rw [bsGo, if_pos hlt]
        by_cases hpt : ts.getD (left + (right - left) / 2) 0 < t
        · rw [if_pos hpt]
          exact ih (left + (right - left) / 2 + 1) right (by omega) (by omega) hrlen
            (fun j hj => by
              rcases Nat.lt_or_ge j left with h | h
              · exact hlow j h
              · exact lt_of_le_of_lt
                  (sorted_getD_le hs (by omega) hmid_len) hpt)
            hhigh
        · rw [if_neg hpt]
          by_cases htp : t < ts.getD (left + (right - left) / 2) 0
          · rw [if_pos htp]
            exact ih left (left + (right - left) / 2) (by omega) (by omega) (by omega)
              hlow
              (fun j hj hjlen => lt_of_lt_of_le htp (sorted_getD_le hs hj hjlen))
          · rw [if_neg htp]
            have heq : ts.getD (left + (right - left) / 2) 0 = t :=
              le_antisymm (not_lt.mp htp) (not_lt.mp hpt)
            refine ⟨fun i hi => ?_, fun i hi => ?_⟩
            · obtain rfl : left + (right - left) / 2 = i := Sum.inl.injEq _ _ ▸ hi
              exact ⟨hmid_len, heq⟩
            · exact absurd hi (by simp)
      · rw [bsGo, if_neg hlt]
        have hleq : left = right := by omega
        refine ⟨fun i hi => absurd hi (by simp), fun i hi => ?_⟩
        obtain rfl : left = i := Sum.inr.injEq _ _ ▸ hi
        exact ⟨by omega, hlow, fun j hj hjlen => hhigh j (by omega) hjlen⟩

/-- Claim C6: for a track with at least two keyframes and strictly increasing
timestamps, at wrapped query time `t`: an exact binary-search match at the
last index, or a search landing past the end, skips the curve (finished); a
search landing before the first timestamp skips it (not started); otherwise
the bracketing indices `(i, i+1)` satisfy `ts[i] ≤ t < ts[i+1]` and the local
interpolation factor is `(t - ts[i]) / (ts[i+1] - ts[i])`. -/
theorem C6_keyframe_search (ts : List ℚ) (t : ℚ)
    (hs : List.Pairwise (· < ·) ts) (hlen : 2 ≤ ts.length) :
    (∀ n, binarySearchBy ts t = .inl n → ts.length - 1 ≤ n → findStep ts t = none) ∧
    (∀ n, binarySearchBy ts t = .inr n → (n = 0 ∨ ts.length - 1 < n) →
      findStep ts t = none) ∧
    (∀ i, findStep ts t = some i →
      i + 1 < ts.length ∧ ts.getD i 0 ≤ t ∧ t < ts.getD (i + 1) 0 ∧
      lerpFactor ts t i = (t - ts.getD i 0) / (ts.getD (i + 1) 0 - ts.getD i 0)) := by
  have hspec := bsGo_spec ts t hs (ts.length + 1) 0 ts.length (by omega) (by omega)
    (le_refl _) (fun j hj => absurd hj (Nat.not_lt_zero j)) (fun j hj hjlen => by omega)
  refine ⟨fun n hn hlast => ?_, fun n hn hcase => ?_, fun i hi => ?_⟩
  · rw [findStep, hn]
    dsimp only
    rw [if_pos hlast]
  · rw [findStep, hn]
    rcases hcase with h0 | hpast
    · rw [h0]
    · cases n with
      | zero => omega
      | succ m =>
          show (if ts.length - 1 < m + 1 then none else some (m + 1 - 1)) = none
          rw [if_pos hpast]
  · cases hbs : binarySearchBy ts t with
    | inl n =>
        simp only [findStep, hbs] at hi
        by_cases hlast : ts.length - 1 ≤ n
        · rw [if_pos hlast] at hi
          exact absurd hi (by simp)
        · rw [if_neg hlast] at hi
          obtain rfl : n = i := (Option.some.injEq _ _).mp hi
          obtain ⟨hnlen, hexact⟩ := hspec.1 n hbs
          refine ⟨by omega, le_of_eq hexact, ?_, rfl⟩
          rw [← hexact]
          exact sorted_getD_lt hs (Nat.lt_succ_self n) (by omega)
    | inr n =>
        obtain ⟨hnlen, hbelow, habove⟩ := hspec.2 n hbs
        cases n with
        | zero =>
            simp only [findStep, hbs] at hi
            exact Option.noConfusion hi
        | succ m =>
            simp only [findStep, hbs] at hi
            by_cases hpast : ts.length - 1 < m + 1
            · rw [if_pos hpast] at hi
              exact absurd hi (by simp)
            · rw [if_neg hpast] at hi
              obtain rfl : m = i := by simpa using (Option.some.injEq _ _).mp hi
              refine ⟨by omega, le_of_lt (hbelow m (Nat.lt_succ_self m)), ?_, rfl⟩
              exact habove (m + 1) (le_refl _) (by omega)

/-- Witness for C6 on the concrete timestamps `[0, 1, 2]` at `t = 1/2`: the
search lands between the first two keyframes, bracketing holds, and the
interpolation factor is `1/2`. -/
theorem C6_keyframe_search_witness :
    findStep [0, 1, 2] (1/2 : ℚ) = some 0 ∧
    ([0, 1, 2] : List ℚ).getD 0 0 ≤ 1/2 ∧ (1/2 : ℚ) < ([0, 1, 2] : List ℚ).getD 1 0 ∧
    lerpFactor [0, 1, 2] (1/2) 0 = 1/2 := by
  have hstep : findStep [0, 1, 2] (1/2 : ℚ) = some 0 := by
    norm_num [findStep, binarySearchBy, bsGo]
  obtain ⟨-, hle, hlt, hfac⟩ :=
    (C6_keyframe_search [0, 1, 2] (1/2) (by norm_num) (by norm_num)).2.2 0 hstep
  refine ⟨hstep, hle, hlt, ?_⟩
  rw [hfac]
  norm_num

end BevyAnim
